import Mathlib

set_option maxHeartbeats 1000000

/-!
Verification of the croj-sandbox judge engine.

This file gives a shallow embedding, in Lean 4, of the parts of the
croj-sandbox code base that the specification's claims talk about:

* the output comparator (`internal/util/tempdir.go`: `NormalizeString`,
  `CompareOutputs`);
* the bounded output sink (`internal/sandbox/executor.go`: `LimitedWriter`);
* the execute-stage verdict computation (`internal/sandbox/executor.go`:
  `Executor.Execute`, the monitor-based variant used by `RunWithConfig`);
* the runner's compile-failure short-circuit and output-comparison step
  (`internal/sandbox/runner.go`: `RunWithConfig`);
* the API-level timeout override (`internal/sandbox/api.go`: `Execute`,
  `internal/sandbox/config.go`: `GetExecuteTimeout`);
* the process monitor's flag discipline (`internal/util/process.go`:
  `MonitorProcess`), modelled as an interleaving transition system;
* the seccomp filter construction (`internal/security/seccomp.go`:
  `ApplySeccompFilters`, `GetDefaultAllowedSyscalls`).

Each Go function is translated into an executable Lean definition, and the
claims of the specification are settled as theorems about those definitions.
-/

namespace CrojSandbox

/-! ## Definitions: the shallow embedding of the judged components -/

/-- Character-level rendering of Go's `unicode.IsSpace`: the Latin-1 space
characters `\t \n \v \f \r U+0020 U+0085 U+00A0` together with the Unicode
`White_Space` code points outside Latin-1. -/
def isGoSpace (c : Char) : Bool :=
  c.toNat = 9 || c.toNat = 10 || c.toNat = 11 || c.toNat = 12 || c.toNat = 13 ||
  c.toNat = 32 || c.toNat = 0x85 || c.toNat = 0xA0 || c.toNat = 0x1680 ||
  (0x2000 ≤ c.toNat && c.toNat ≤ 0x200A) ||
  c.toNat = 0x2028 || c.toNat = 0x2029 || c.toNat = 0x202F ||
  c.toNat = 0x205F || c.toNat = 0x3000

/-- Line-ending canonicalization of `NormalizeString`: the Go code runs
`regexp.MustCompile("\r\n|\r").ReplaceAllString(s, "\n")`, i.e. a left-to-right
scan replacing each `\r\n` pair and each bare `\r` by a single `\n`. -/
def fixCR : List Char → List Char
  | [] => []
  | '\r' :: '\n' :: rest => '\n' :: fixCR rest
  | '\r' :: rest => '\n' :: fixCR rest
  | c :: rest => c :: fixCR rest

/-- Splitting on `\n`, as Go's `strings.Split(s, "\n")` does: the result always
has one more piece than the number of separators, and splitting the empty
string yields one empty piece. -/
def splitNL : List Char → List (List Char)
  | [] => [[]]
  | c :: rest =>
    if c = '\n' then [] :: splitNL rest
    else
      match splitNL rest with
      | [] => [[c]]
      | l :: ls => (c :: l) :: ls

/-- Joining with `\n`, as Go's `strings.Join(lines, "\n")`. -/
def joinNL : List (List Char) → List Char
  | [] => []
  | [l] => l
  | l :: ls => l ++ '\n' :: joinNL ls

/-- Leading-whitespace removal (the left half of Go's `strings.TrimSpace`). -/
def trimLeft (l : List Char) : List Char := l.dropWhile isGoSpace

/-- Trailing-whitespace removal (the right half of Go's `strings.TrimSpace`):
drop the trailing run of whitespace, i.e. reverse, drop from the left, and
reverse back. -/
def trimRight (l : List Char) : List Char := l.rdropWhile isGoSpace

/-- Go's `strings.TrimSpace`: drop the leading and the trailing run of
whitespace characters. -/
def trimSpace (l : List Char) : List Char := trimRight (trimLeft l)

/-- Character-list core of `util.NormalizeString`: canonicalize line endings,
trim every line, rejoin with `\n`, and trim the whole string. -/
def normalizeChars (s : List Char) : List Char :=
  trimSpace (joinNL ((splitNL (fixCR s)).map trimSpace))

/-- Model of `util.NormalizeString` on Lean strings. -/
def NormalizeString (s : String) : String :=
  String.mk (normalizeChars s.data)

/-- Model of `util.CompareOutputs`: equality after normalizing both sides. -/
def CompareOutputs (actual expected : String) : Bool :=
  NormalizeString actual == NormalizeString expected

/-- A list is trimmed when neither end carries whitespace. -/
def Trimmed (l : List Char) : Prop := trimLeft l = l ∧ trimRight l = l

/-- Pieces dropped from the tail end: the effect of right-trimming on a join of
trimmed lines. -/
def dropEndEmpty (ls : List (List Char)) : List (List Char) :=
  ((ls.reverse).dropWhile fun l => l.isEmpty).reverse

/-- Verdict taxonomy of `result.go`. Go's `Status` is a string type whose zero
value `""` acts as a sentinel while the executor decides the verdict; the
sentinel is modelled by the `empty` constructor. -/
inductive Status where
  | empty
  | accepted
  | compileError
  | runtimeError
  | timeLimitExceeded
  | memoryLimitExceeded
  | outputLimitExceeded
  | sandboxError
  | wrongAnswer
  | unknown
deriving DecidableEq, Repr

/-- Model of `sandbox.Result`. -/
structure Result where
  status : Status
  exitCode : Int
  stdout : String
  stderr : String
  error : String
  timeUsedMillis : Int
  memoryUsedKB : Int
  compileOutput : String
deriving DecidableEq, Repr

/-- Configuration fields of `sandbox.Config` that the execute stage reads. -/
structure ExecConfig where
  execTimeoutMillis : Int
  memLimitKB : Int
  maxStdoutSize : Int
  maxStderrSize : Int
deriving DecidableEq, Repr

/-- Observations available to `Execute` once `execCmd.Wait()` has returned:
the monitor's stats, the context state, the two sink flags and captured
buffers, and the wait outcome. -/
structure ExecInput where
  timedOut : Bool
  exceededMemory : Bool
  memoryKB : Int
  durationMillis : Int
  ctxDeadlineExceeded : Bool
  stdoutExceeded : Bool
  stderrExceeded : Bool
  stdout : String
  stderr : String
  waitError : Option String
  exitCode : Int
deriving DecidableEq, Repr

/-- Message of `ErrOutputLimitExceeded` wrapped for the stdout sink:
`fmt.Errorf("%w (stdout, limit: %d bytes)", ...)`. -/
def stdoutLimitMessage (maxStdoutSize : Int) : String :=
  "output limit exceeded (stdout, limit: " ++ toString maxStdoutSize ++ " bytes)"

/-- Message of `ErrOutputLimitExceeded` wrapped for the stderr sink. -/
def stderrLimitMessage (maxStderrSize : Int) : String :=
  "output limit exceeded (stderr, limit: " ++ toString maxStderrSize ++ " bytes)"

/-- Step 4 of the executor: build the combined output-limit error from the two
sink flags, or report that neither sink overflowed. -/
def outputLimitError (stdoutExceeded stderrExceeded : Bool) (maxOut maxErr : Int) :
    Option String :=
  let e0 : Option String :=
    if stdoutExceeded then some (stdoutLimitMessage maxOut) else none
  if stderrExceeded then
    match e0 with
    | some m => some (m ++ "; " ++ stderrLimitMessage maxErr)
    | none => some (stderrLimitMessage maxErr)
  else e0

/-- Rendering of the executor's time-limit message; Go formats the duration
and the limit with `%.2f` in seconds, abstracted here by the underlying
millisecond integers (no claim inspects this text). -/
def timeLimitMessage (durMillis limitMillis : Int) : String :=
  "时间超限: " ++ toString durMillis ++ "ms (限制: " ++ toString limitMillis ++ "ms)"

/-- Message of the executor's memory-limit branch. -/
def memoryLimitMessage (memKB limitKB : Int) : String :=
  "Memory limit exceeded: " ++ toString memKB ++ " KB (limit: " ++ toString limitKB ++ " KB)"

/-- Message of the executor's backup context-deadline branch. -/
def ctxDeadlineMessage : String :=
  "Context deadline exceeded: local execution timed out"

/-- Message of the executor's wait-error branch. -/
def runtimeErrorMessage (waitErr : String) (exitCode : Int) : String :=
  "Runtime error: " ++ waitErr ++ " (exit code: " ++ toString exitCode ++ ")"

/-- Message of the executor's non-zero-exit fallback branch. -/
def exitCodeMessage (exitCode : Int) : String :=
  "Process exited with code " ++ toString exitCode

/-- Verdict computation of `Executor.Execute` (the monitor-based variant),
translated statement by statement from the Go code that runs after
`execCmd.Wait()` returns: the early-return branches for the monitor's
timeout and memory flags and the context deadline, then the output-limit,
wait-error and exit-code checks on the status field. `ProcessState` is
non-nil once `Wait` has returned, so the exit-code assignment of step 5 is
unconditional. -/
def executorResult (cfg : ExecConfig) (i : ExecInput) : Result :=
  let base : Result := {
    status := Status.empty, exitCode := 0,
    timeUsedMillis := i.durationMillis, memoryUsedKB := i.memoryKB,
    stdout := i.stdout, stderr := i.stderr, error := "", compileOutput := "" }
  if i.timedOut then
    { base with
      status := Status.timeLimitExceeded
      error := timeLimitMessage i.durationMillis cfg.execTimeoutMillis
      exitCode := -1 }
  else if i.exceededMemory then
    { base with
      status := Status.memoryLimitExceeded
      error := memoryLimitMessage i.memoryKB cfg.memLimitKB
      exitCode := -1 }
  else if i.ctxDeadlineExceeded then
    { base with
      status := Status.timeLimitExceeded
      error := ctxDeadlineMessage
      exitCode := -1 }
  else
    let r1 : Result :=
      match outputLimitError i.stdoutExceeded i.stderrExceeded
          cfg.maxStdoutSize cfg.maxStderrSize with
      | some msg => { base with
          status := Status.outputLimitExceeded
          error := msg }
      | none => base
    let r2 : Result := { r1 with exitCode := i.exitCode }
    let r3 : Result :=
      match i.waitError with
      | some werr =>
        if r2.status = Status.empty then
          { r2 with
            status := Status.runtimeError
            error := runtimeErrorMessage werr r2.exitCode }
        else r2
      | none => r2
    if r3.status = Status.empty then
      if r3.exitCode = 0 then { r3 with status := Status.accepted }
      else { r3 with
        status := Status.runtimeError
        error := exitCodeMessage r3.exitCode }
    else r3

/-- Modelled from the spec: the message of `ErrOutputMismatch`, whose defining
`errors.New` call sits in a `result.go` revision that is not part of the
sources; only the `Error()` call site in `RunWithConfig` appears. The exact
text is not observable by any claim. -/
def outputMismatchMessage : String := "output mismatch"

/-- Step 6 of `RunWithConfig`: compare the captured stdout against the
expected output, only when execution ended `Accepted` and an expected output
was provided; on mismatch flip the status to `WrongAnswer` and set the error
field, leaving every other field (in particular the raw stdout) unchanged. -/
def compareStep (res : Result) (expectedOutput : Option String) : Result :=
  match expectedOutput with
  | some expected =>
    if res.status = Status.accepted then
      if CompareOutputs res.stdout expected then res
      else { res with
        status := Status.wrongAnswer
        error := outputMismatchMessage }
    else res
  | none => res

/-- Compile-phase outcome reaching the `compileErr != nil` handler of
`RunWithConfig`: whether the failure was the compile-timeout kind
(`errors.Is(compileErr, ErrCompileTimeout)`), the message of the wrapped
error, and the captured compile diagnostics. -/
structure CompileFailure where
  isTimeout : Bool
  errMessage : String
  diagnostics : String
deriving DecidableEq, Repr

/-- Compile-failure handler of `RunWithConfig`: build `NewResult(StatusCompileError,
compileErr)`, attach the compile output, and overwrite the error field with the
diagnostics exactly when the failure was not a timeout. `NewResult` sets exit
code, time and memory to `-1`. -/
def compileFailureResult (f : CompileFailure) : Result :=
  let res : Result := {
    status := Status.compileError, exitCode := -1, stdout := "", stderr := "",
    error := f.errMessage, timeUsedMillis := -1, memoryUsedKB := -1,
    compileOutput := f.diagnostics }
  if f.isTimeout then res else { res with error := f.diagnostics }

/-- Execution phase of `RunWithConfig` after a successful compile: run the
executor, attach the compile output to its result, and apply the comparison
step. -/
def runExecutePhase (cfg : ExecConfig) (i : ExecInput) (compileOutput : String)
    (expectedOutput : Option String) : Result :=
  let execResult := executorResult cfg i
  let execResult := { execResult with compileOutput := compileOutput }
  compareStep execResult expectedOutput

/-- Whole-run outcome of `RunWithConfig` from the compile phase onward,
together with the fact of whether the execute stage ran: a compile failure
returns before the run command is ever built or started. -/
def runWithConfig (cfg : ExecConfig) (compile : Option CompileFailure)
    (i : ExecInput) (compileOutput : String) (expectedOutput : Option String) :
    Result × Bool :=
  match compile with
  | some f => (compileFailureResult f, false)
  | none => (runExecutePhase cfg i compileOutput expectedOutput, true)

/-- Verdict table of spec paragraph 4.7 together with its rule-6 comparison,
written from the specification's words as a first-match priority list, for
comparison against the code's status-field computation. -/
def verdictSpecTable (i : ExecInput) (expectedOutput : Option String) : Status :=
  if i.timedOut then Status.timeLimitExceeded
  else if i.exceededMemory then Status.memoryLimitExceeded
  else if i.ctxDeadlineExceeded then Status.timeLimitExceeded
  else if i.stdoutExceeded || i.stderrExceeded then Status.outputLimitExceeded
  else if i.waitError.isSome || i.exitCode ≠ 0 then Status.runtimeError
  else
    match expectedOutput with
    | some e =>
      if NormalizeString i.stdout = NormalizeString e then Status.accepted
      else Status.wrongAnswer
    | none => Status.accepted

/-- Sample result used to witness the comparison-step claim. -/
def sampleAcceptedResult : Result :=
  { status := Status.accepted, exitCode := 0, stdout := "1 ", stderr := "",
    error := "", timeUsedMillis := 5, memoryUsedKB := 100, compileOutput := "" }

/-- Model of `LanguageConfig.GetExecuteTimeout` (config.go): when the caller
marked the timeout user-specified, the passed default (into which the API
stored the user value) wins; otherwise the language's own `TimeoutSec`
applies unless it is unset (non-positive). Times are in whole seconds, as
both the request field and the config fields are second-granular. -/
def getExecuteTimeout (runTimeoutSec defaultTimeout : Int) (userSpecified : Bool) : Int :=
  if userSpecified then defaultTimeout
  else if runTimeoutSec ≤ 0 then defaultTimeout
  else runTimeoutSec

/-- Timeout-override block of `SandboxAPI.Execute` (api.go): a request-supplied
positive timeout of at most 30 seconds replaces the language timeout and sets
the user-specified flag; any other request value leaves both untouched. -/
def apiTimeoutOverride (langExecTimeout : Int) (reqTimeout : Option Int) : Int × Bool :=
  match reqTimeout with
  | some t =>
    if t > 0 then
      if t ≤ 30 then (t, true) else (langExecTimeout, false)
    else (langExecTimeout, false)
  | none => (langExecTimeout, false)

/-- Effective run timeout of a request end to end: the API first resolves the
language timeout (`GetExecuteTimeout` with no user flag), applies the
override block, stores the result in the run config, and `RunWithConfig`
resolves the final limit with `GetExecuteTimeout` under the stored flag. -/
def effectiveRunTimeout (langRunTimeoutSec globalDefaultSec : Int)
    (reqTimeout : Option Int) : Int × Bool :=
  let e0 := getExecuteTimeout langRunTimeoutSec globalDefaultSec false
  let r := apiTimeoutOverride e0 reqTimeout
  (getExecuteTimeout langRunTimeoutSec r.1 r.2, r.2)

/-- State of a `LimitedWriter`: the underlying `bytes.Buffer` contents, the
byte cap, the running count of bytes written through, and the overflow flag. -/
structure LimitedWriter where
  buf : List Char
  limit : Int
  written : Int
  Exceeded : Bool
deriving DecidableEq, Repr

/-- Model of `NewLimitedWriter` over a fresh `bytes.Buffer`. -/
def NewLimitedWriter (limit : Int) : LimitedWriter :=
  { buf := [], limit := limit, written := 0, Exceeded := false }

/-- Model of `LimitedWriter.Write`, translated statement by statement. The
underlying writer is the in-memory `bytes.Buffer`, whose `Write` appends its
whole argument and always succeeds, so `n = writeLen` and `err = nil` on the
inner write; the returned pair carries the reported count and error. -/
def lwWrite (lw : LimitedWriter) (p : List Char) :
    LimitedWriter × Int × Option String :=
  let remaining := lw.limit - lw.written
  if remaining ≤ 0 then
    ({ lw with Exceeded := true }, (p.length : Int), none)
  else
    let pLen : Int := (p.length : Int)
    let writeLen : Int := if pLen > remaining then remaining else pLen
    let exceeded : Bool := if pLen > remaining then true else lw.Exceeded
    let n : Int := writeLen
    let lw' : LimitedWriter :=
      { buf := lw.buf ++ p.take writeLen.toNat, limit := lw.limit,
        written := lw.written + n, Exceeded := exceeded }
    if exceeded then (lw', pLen, none) else (lw', n, none)

/-- Folding a sequence of writes over a sink. -/
def lwWriteAll (lw : LimitedWriter) : List (List Char) → LimitedWriter
  | [] => lw
  | p :: ps => lwWriteAll (lwWrite lw p).1 ps

/-- Invariant of a sink with cap `L`: the limit is constant, the write count
mirrors the buffer length, stays within the interval from 0 to `max L 0`, and
the overflow flag is set only once the cap is consumed. -/
def lwInv (L : Int) (s : LimitedWriter) : Prop :=
  s.limit = L ∧ s.written = (s.buf.length : Int) ∧ 0 ≤ s.written ∧
  s.written ≤ max L 0 ∧ (s.Exceeded = true → s.limit ≤ s.written)

/-- Per-write contract of the bounded sink with cap `L` in state `s`: a
saturated sink discards the bytes, flags overflow and reports the full length
consumed; an unsaturated sink appends `min(n, L - written)` bytes and flags
overflow exactly when it truncated; and the captured buffer never exceeds
`L` bytes. -/
def lwWriteBehavior (L : Int) (s : LimitedWriter) (p : List Char) : Prop :=
  (L ≤ s.written →
    ((lwWrite s p).1.buf = s.buf ∧ (lwWrite s p).1.Exceeded = true ∧
     (lwWrite s p).2.1 = (p.length : Int))) ∧
  (s.written < L →
    ((lwWrite s p).1.buf = s.buf ++ p.take (min p.length (L - s.written).toNat) ∧
     ((lwWrite s p).1.Exceeded = true ↔ L - s.written < (p.length : Int)))) ∧
  ((s.buf.length : Int) ≤ L)

/-- Interleaving state of a single monitored run: the mutex-guarded shared
stats fields the claims talk about, whether each of the two goroutines (the
timer and the sampler) has returned, and whether the executor has closed the
`done` channel. -/
structure MonState where
  memoryKB : Int
  isExceeded : Bool
  isTimeout : Bool
  timerDone : Bool
  samplerDone : Bool
  doneClosed : Bool
deriving DecidableEq, Repr

/-- Initial stats of `MonitorProcess`: `MemoryKB: -1`, both flags clear, both
goroutines running, `done` open. -/
def monInit : MonState :=
  { memoryKB := -1, isExceeded := false, isTimeout := false,
    timerDone := false, samplerDone := false, doneClosed := false }

/-- One sampler tick holding the mutex, after the timeout and liveness checks
passed: fold in a memory observation (`none` models a probe error), keep the
running peak, and when a positive limit is breached set `IsExceeded`, kill the
tree and return. -/
def samplerObserve (limitKB : Int) (s : MonState) (sample : Option Int) : MonState :=
  let mem' := match sample with
    | some m => if m > s.memoryKB then m else s.memoryKB
    | none => s.memoryKB
  if limitKB > 0 ∧ mem' > limitKB then
    { s with memoryKB := mem', isExceeded := true, samplerDone := true }
  else { s with memoryKB := mem' }

/-- Interleaving steps of the two `MonitorProcess` goroutines and of the
executor closing `done`. Each constructor is one mutex-protected block of the
Go code: the timer fires (setting `IsTimeout` unconditionally) or is
cancelled; the sampler exits because the timeout flag is already set, because
the process is gone, or because `done` closed, or it completes one
observation tick; the executor closes `done`. -/
inductive MonStep (limitKB : Int) : MonState → MonState → Prop where
  | timerFire {s : MonState} (hT : s.timerDone = false) (hD : s.doneClosed = false) :
      MonStep limitKB s { s with isTimeout := true, timerDone := true }
  | timerCancel {s : MonState} (hT : s.timerDone = false) (hD : s.doneClosed = true) :
      MonStep limitKB s { s with timerDone := true }
  | samplerSeesTimeout {s : MonState} (hS : s.samplerDone = false)
      (hT : s.isTimeout = true) :
      MonStep limitKB s { s with samplerDone := true }
  | samplerProcessGone {s : MonState} (hS : s.samplerDone = false)
      (hT : s.isTimeout = false) :
      MonStep limitKB s { s with samplerDone := true }
  | samplerTick {s : MonState} (sample : Option Int) (hS : s.samplerDone = false)
      (hT : s.isTimeout = false) :
      MonStep limitKB s (samplerObserve limitKB s sample)
  | samplerCancel {s : MonState} (hS : s.samplerDone = false)
      (hD : s.doneClosed = true) :
      MonStep limitKB s { s with samplerDone := true }
  | closeDone {s : MonState} (hD : s.doneClosed = false) :
      MonStep limitKB s { s with doneClosed := true }

/-- Reachability along monitor steps. -/
inductive MonReaches (limitKB : Int) : MonState → MonState → Prop where
  | refl (s : MonState) : MonReaches limitKB s s
  | step {s t u : MonState} : MonReaches limitKB s t → MonStep limitKB t u →
      MonReaches limitKB s u

/-- Actions of the libseccomp binding used by `ApplySeccompFilters`. -/
inductive SeccompAction where
  | allow
  | errnoReturn
  | killThread
deriving DecidableEq, Repr

/-- Comparison operators appearing in the socket rules. -/
inductive ScmpCompareOp where
  | maskedEqual
  | notEqual
deriving DecidableEq, Repr

/-- One argument condition of a conditional rule. -/
structure ScmpCondition where
  argument : Nat
  op : ScmpCompareOp
  operand1 : Nat
  operand2 : Nat
deriving DecidableEq, Repr

/-- One rule attached to the filter: a syscall, an action, and the conditions
(empty for the plain `AddRule` calls). -/
structure SeccompRule where
  syscallName : String
  action : SeccompAction
  conditions : List ScmpCondition
deriving DecidableEq, Repr

/-- A built filter: the default action plus the attached rules in the order
the Go code adds them. -/
structure SeccompFilter where
  defaultAction : SeccompAction
  rules : List SeccompRule
deriving DecidableEq, Repr

/-- The fields of `security.SecurityProfile` that `ApplySeccompFilters`
reads. -/
structure SecurityProfile where
  seccompMode : String
  allowedSyscalls : List String
  disableNetwork : Bool
  disableExec : Bool
deriving DecidableEq, Repr

/-- Model of `GetDefaultAllowedSyscalls`: the default allow-list, including
`socket` (commented in the source as socket calls being subject to
conditional control). -/
def GetDefaultAllowedSyscalls : List String :=
  ["read", "write", "close", "fstat", "lseek", "mmap", "mprotect", "munmap", "brk",
   "readv", "writev", "pread64", "pwrite64", "lstat", "readlink",
   "access", "open", "openat", "stat", "getcwd", "fcntl",
   "fstatfs", "getdents", "getdents64", "readdir", "rename", "unlink", "rmdir",
   "mkdir", "link", "chmod", "truncate", "fallocate", "utime", "chdir", "dup",
   "dup2", "pipe",
   "clone", "fork", "vfork", "wait4", "kill", "exit", "exit_group",
   "rt_sigreturn", "rt_sigaction", "rt_sigprocmask", "rt_sigqueueinfo",
   "setitimer", "getitimer", "nanosleep", "clock_gettime", "sched_yield",
   "mremap", "msync", "mincore", "madvise", "shmget", "shmat", "shmdt", "shmctl",
   "getrusage", "getrlimit", "getpriority", "getuid", "geteuid", "getgid",
   "getegid", "gettid", "getpid", "getppid", "gettimeofday", "uname", "getrandom",
   "socket", "socketpair", "bind", "listen", "accept", "accept4", "connect",
   "futex", "epoll_create", "epoll_create1", "epoll_ctl", "epoll_wait",
   "epoll_pwait", "select", "poll", "timerfd_create", "timerfd_settime",
   "timerfd_gettime"]

/-- Model of `ApplySeccompFilters`: the filter that the Go code builds and
loads: default action from the mode, one unconditional Allow rule per
allow-list entry (the default list when the profile specifies none; every
modelled name resolves, so no entry is skipped), then, when network is
disabled, the two conditional `socket` rules with the operand values the code
passes, and, when exec is disabled, errno rules for `execve`/`execveat`. -/
def ApplySeccompFilters (profile : SecurityProfile) : SeccompFilter :=
  let defaultAction :=
    if profile.seccompMode = "strict" then SeccompAction.killThread
    else SeccompAction.errnoReturn
  let allowedSyscalls :=
    if profile.allowedSyscalls.isEmpty then GetDefaultAllowedSyscalls
    else profile.allowedSyscalls
  let allowRules := allowedSyscalls.map fun name =>
    { syscallName := name, action := SeccompAction.allow,
      conditions := [] : SeccompRule }
  let socketRules :=
    if profile.disableNetwork then
      [{ syscallName := "socket", action := SeccompAction.allow,
         conditions := [{ argument := 0, op := ScmpCompareOp.maskedEqual,
                          operand1 := 1, operand2 := 0xFFFFFFFF }] },
       { syscallName := "socket", action := SeccompAction.errnoReturn,
         conditions := [{ argument := 0, op := ScmpCompareOp.notEqual,
                          operand1 := 1, operand2 := 0xFFFFFFFF }] }]
    else []
  let execRules :=
    if profile.disableExec then
      [{ syscallName := "execve", action := SeccompAction.errnoReturn,
         conditions := [] },
       { syscallName := "execveat", action := SeccompAction.errnoReturn,
         conditions := [] }]
    else []
  { defaultAction := defaultAction, rules := allowRules ++ socketRules ++ execRules }

/-- Modelled from the spec: the in-kernel screening of a loaded filter
("Load the filter; thereafter every subsequent syscall is screened
in-kernel", spec paragraph 4.5). The screening implementation (libseccomp and
the kernel) is not part of the sources; following its documented semantics, a
condition compares one syscall argument: masked equality is
`(arg & operand1) == operand2` and not-equal is `arg != operand1`. -/
def evalCondition (c : ScmpCondition) (args : Nat → Nat) : Bool :=
  match c.op with
  | ScmpCompareOp.maskedEqual => (args c.argument &&& c.operand1) == c.operand2
  | ScmpCompareOp.notEqual => args c.argument != c.operand1

/-- Modelled from the spec: a rule matches an invocation when it names the
syscall and every attached condition holds. -/
def ruleMatches (r : SeccompRule) (name : String) (args : Nat → Nat) : Bool :=
  r.syscallName == name && r.conditions.all fun c => evalCondition c args

/-- Modelled from the spec: the screening verdict for one invocation, i.e. the
action of the first matching attached rule, or the filter's default action
when none matches. -/
def evalFilter (f : SeccompFilter) (name : String) (args : Nat → Nat) : SeccompAction :=
  match f.rules.find? (fun r => ruleMatches r name args) with
  | some r => r.action
  | none => f.defaultAction

/-! ## Theorems -/

/-- Sanity evaluation of the normalization pipeline on a mixed input. -/
theorem normalizeString_sample :
    NormalizeString "  a b \r\n\r x\t\n\n" = "a b\n\nx" := by decide

theorem dropWhile_head_false {p : Char → Bool} {c : Char} {t : List Char}
    (h : List.dropWhile p (c :: t) = c :: t) : p c = false := by
  by_cases hc : p c
  · exfalso
    rw [List.dropWhile_cons, if_pos hc] at h
    have hle : (List.dropWhile p t).length ≤ t.length :=
      ((List.dropWhile_suffix p).sublist).length_le
    have := congrArg List.length h
    simp only [List.length_cons] at this
    omega
  · exact Bool.of_not_eq_true hc

theorem dropWhile_eq_self_of_isPrefix {p : Char → Bool} {l y : List Char}
    (hl : List.dropWhile p l = l) (hy : y <+: l) : List.dropWhile p y = y := by
  cases y with
  | nil => rfl
  | cons c t =>
    obtain ⟨rest, hrest⟩ := hy
    have hlc : l = c :: (t ++ rest) := by rw [← hrest]; rfl
    have hc : p c = false := dropWhile_head_false (hlc ▸ hl)
    rw [List.dropWhile_cons, hc]
    simp

theorem trimmed_trimSpace (l : List Char) : Trimmed (trimSpace l) := by
  constructor
  · have h1 : List.dropWhile isGoSpace (trimLeft l) = trimLeft l := by
      simpa [trimLeft] using List.dropWhile_idempotent isGoSpace l
    have h2 : trimSpace l <+: trimLeft l := List.rdropWhile_prefix _ _
    exact dropWhile_eq_self_of_isPrefix h1 h2
  · simpa [trimSpace, trimRight] using List.rdropWhile_idempotent isGoSpace (trimLeft l)

theorem trimSpace_eq_self_of_trimmed {l : List Char} (h : Trimmed l) : trimSpace l = l := by
  rw [trimSpace, trimLeft, show List.dropWhile isGoSpace l = l from h.1]
  exact h.2

theorem trimSpace_idem (l : List Char) : trimSpace (trimSpace l) = trimSpace l :=
  trimSpace_eq_self_of_trimmed (trimmed_trimSpace l)

theorem trimmed_head_not_space {c : Char} {t : List Char} (h : Trimmed (c :: t)) :
    isGoSpace c = false :=
  dropWhile_head_false h.1

theorem trimRight_eq_self_iff_rev {l : List Char} :
    trimRight l = l ↔ List.dropWhile isGoSpace l.reverse = l.reverse := by
  rw [trimRight, List.rdropWhile]
  constructor
  · intro h
    conv_rhs => rw [← h]
    rw [List.reverse_reverse]
  · intro h
    rw [h, List.reverse_reverse]

theorem trimSpace_subset (l : List Char) : trimSpace l ⊆ l := by
  intro c hc
  have h1 : List.Sublist (trimSpace l) (trimLeft l) := ( List.rdropWhile_prefix _ _).sublist
  have h2 : List.Sublist (trimLeft l) l := (List.dropWhile_suffix _).sublist
  exact h2.subset (h1.subset hc)

theorem fixCR_crnl (rest : List Char) :
    fixCR ('\r' :: '\n' :: rest) = '\n' :: fixCR rest := rfl

theorem fixCR_cr_of_ne {c : Char} (h : c ≠ '\n') (rest : List Char) :
    fixCR ('\r' :: c :: rest) = '\n' :: fixCR (c :: rest) := by
  rw [fixCR.eq_def]
  split
  all_goals simp_all
  rename_i hne heq
  exact absurd heq.1.symm hne

theorem fixCR_cons_of_ne {c : Char} (h : c ≠ '\r') (rest : List Char) :
    fixCR (c :: rest) = c :: fixCR rest := by
  rw [fixCR.eq_def]
  split
  all_goals simp_all

theorem fixCR_no_cr (s : List Char) : '\r' ∉ fixCR s := by
  induction s using fixCR.induct with
  | case1 => simp [fixCR]
  | case2 rest ih =>
    rw [fixCR_crnl]
    simp only [List.mem_cons, not_or]
    exact ⟨by decide, ih⟩
  | case3 rest hne ih =>
    cases rest with
    | nil => simp [fixCR]
    | cons c2 rest2 =>
      have hc2 : c2 ≠ '\n' := by
        intro hh
        exact hne rest2 (by rw [hh])
      rw [fixCR_cr_of_ne hc2]
      simp only [List.mem_cons, not_or]
      exact ⟨by decide, ih⟩
  | case4 c rest hcr hne ih =>
    have hc : c ≠ '\r' := by
      intro hh
      cases rest with
      | nil => exact hne hh
      | cons c2 rest2 =>
        by_cases h2 : c2 = '\n'
        · exact hcr rest2 hh (by rw [h2])
        · exact hne hh
    rw [fixCR_cons_of_ne hc]
    simp only [List.mem_cons, not_or]
    exact ⟨fun hh => hc hh.symm, ih⟩

theorem fixCR_eq_self_of_no_cr {s : List Char} (h : '\r' ∉ s) : fixCR s = s := by
  induction s with
  | nil => rfl
  | cons c rest ih =>
    simp only [List.mem_cons, not_or] at h
    have hc : c ≠ '\r' := fun hh => h.1 hh.symm
    rw [fixCR_cons_of_ne hc, ih h.2]

theorem splitNL_ne_nil (s : List Char) : splitNL s ≠ [] := by
  induction s with
  | nil => simp [splitNL]
  | cons c rest ih =>
    rw [splitNL]
    by_cases hc : c = '\n'
    · simp [hc]
    · rw [if_neg hc]
      cases hs : splitNL rest with
      | nil => simp
      | cons l ls => simp

theorem mem_splitNL_no_nl {s : List Char} {l : List Char} (hl : l ∈ splitNL s) :
    '\n' ∉ l := by
  induction s generalizing l with
  | nil =>
    simp [splitNL] at hl
    simp [hl]
  | cons c rest ih =>
    rw [splitNL] at hl
    by_cases hc : c = '\n'
    · rw [if_pos hc] at hl
      rcases List.mem_cons.mp hl with h | h
      · simp [h]
      · exact ih h
    · rw [if_neg hc] at hl
      cases hs : splitNL rest with
      | nil => exact absurd hs (splitNL_ne_nil rest)
      | cons m ms =>
        rw [hs] at hl
        rcases List.mem_cons.mp hl with h | h
        · subst h
          intro hmem
          rcases List.mem_cons.mp hmem with h | h
          · exact hc h.symm
          · exact ih (hs ▸ List.mem_cons_self m ms) h
        · exact ih (hs ▸ List.mem_cons.mpr (Or.inr h))

theorem mem_splitNL_subset {s l : List Char} (hl : l ∈ splitNL s) : l ⊆ s := by
  induction s generalizing l with
  | nil =>
    simp [splitNL] at hl
    simp [hl]
  | cons c rest ih =>
    rw [splitNL] at hl
    by_cases hc : c = '\n'
    · rw [if_pos hc] at hl
      rcases List.mem_cons.mp hl with h | h
      · simp [h]
      · exact (ih h).trans (List.subset_cons_self c rest)
    · rw [if_neg hc] at hl
      cases hs : splitNL rest with
      | nil => exact absurd hs (splitNL_ne_nil rest)
      | cons m ms =>
        rw [hs] at hl
        rcases List.mem_cons.mp hl with h | h
        · subst h
          intro x hx
          rcases List.mem_cons.mp hx with h | h
          · exact h ▸ List.mem_cons_self c rest
          · exact List.mem_cons_of_mem c
              ((ih (hs ▸ List.mem_cons_self m ms)) h)
        · exact ((ih (hs ▸ List.mem_cons.mpr (Or.inr h)))).trans
            (List.subset_cons_self c rest)

theorem joinNL_cons_of_ne (l : List Char) {ls : List (List Char)} (h : ls ≠ []) :
    joinNL (l :: ls) = l ++ '\n' :: joinNL ls := by
  cases ls with
  | nil => exact absurd rfl h
  | cons m ms => rfl

theorem mem_joinNL {c : Char} {ls : List (List Char)} (hc : c ∈ joinNL ls) :
    c = '\n' ∨ ∃ l ∈ ls, c ∈ l := by
  induction ls with
  | nil => simp [joinNL] at hc
  | cons l ms ih =>
    cases ms with
    | nil => exact Or.inr ⟨l, by simp, by simpa [joinNL] using hc⟩
    | cons m ms2 =>
      rw [joinNL_cons_of_ne l (by simp)] at hc
      rcases List.mem_append.mp hc with h | h
      · exact Or.inr ⟨l, by simp, h⟩
      · rcases List.mem_cons.mp h with h | h
        · exact Or.inl h
        · rcases ih h with h | ⟨m', hm', hcm⟩
          · exact Or.inl h
          · exact Or.inr ⟨m', List.mem_cons_of_mem l hm', hcm⟩

theorem splitNL_of_no_nl {l : List Char} (h : '\n' ∉ l) : splitNL l = [l] := by
  induction l with
  | nil => rfl
  | cons c rest ih =>
    simp only [List.mem_cons, not_or] at h
    rw [splitNL, if_neg (fun hh => h.1 hh.symm), ih h.2]

theorem splitNL_append {l : List Char} (t : List Char) (h : '\n' ∉ l) :
    splitNL (l ++ '\n' :: t) = l :: splitNL t := by
  induction l with
  | nil => simp [splitNL]
  | cons c rest ih =>
    simp only [List.mem_cons, not_or] at h
    rw [List.cons_append, splitNL, if_neg (fun hh => h.1 hh.symm), ih h.2]

theorem splitNL_joinNL {ls : List (List Char)} (hne : ls ≠ [])
    (h : ∀ l ∈ ls, '\n' ∉ l) : splitNL (joinNL ls) = ls := by
  induction ls with
  | nil => exact absurd rfl hne
  | cons l ms ih =>
    cases ms with
    | nil => exact splitNL_of_no_nl (h l (List.mem_cons_self l []))
    | cons m ms2 =>
      rw [joinNL_cons_of_ne l (by simp),
        splitNL_append _ (h l (List.mem_cons_self l _)),
        ih (by simp) (fun x hx => h x (List.mem_cons_of_mem l hx))]

theorem dropWhile_congr_of_eq {α : Type} {p q : α → Bool} {l : List α}
    (h : ∀ x ∈ l, p x = q x) : l.dropWhile p = l.dropWhile q := by
  induction l with
  | nil => rfl
  | cons a t ih =>
    rw [List.dropWhile_cons, List.dropWhile_cons, h a (List.mem_cons_self a t)]
    by_cases hqa : q a = true
    · rw [if_pos hqa, if_pos hqa, ih fun x hx => h x (List.mem_cons_of_mem a hx)]
    · rw [if_neg hqa, if_neg hqa]

theorem trimLeft_joinNL {ls : List (List Char)}
    (h : ∀ l ∈ ls, trimLeft l = l) :
    trimLeft (joinNL ls) = joinNL (ls.dropWhile fun l => l.isEmpty) := by
  induction ls with
  | nil => rfl
  | cons l ms ih =>
    have hms : ∀ x ∈ ms, trimLeft x = x := fun x hx => h x (List.mem_cons_of_mem l hx)
    cases l with
    | nil =>
      cases ms with
      | nil => rfl
      | cons m ms2 =>
        rw [joinNL_cons_of_ne _ (by simp), List.dropWhile_cons]
        simp only [List.isEmpty_nil, if_pos]
        rw [List.nil_append, ← ih hms, trimLeft, trimLeft, List.dropWhile_cons,
          if_pos (by decide)]
    | cons c t =>
      have hc : isGoSpace c = false := dropWhile_head_false (h (c :: t) (List.mem_cons_self _ _))
      have hdw : List.dropWhile (fun l : List Char => l.isEmpty) ((c :: t) :: ms) =
          (c :: t) :: ms := by
        rw [List.dropWhile_cons, if_neg (by simp)]
      rw [hdw]
      cases ms with
      | nil =>
        exact h (c :: t) (List.mem_cons_self _ _)
      | cons m ms2 =>
        rw [joinNL_cons_of_ne _ (by simp), trimLeft, List.cons_append,
          List.dropWhile_cons, if_neg (by simp [hc])]

theorem joinNL_concat {ls : List (List Char)} (hne : ls ≠ []) (b : List Char) :
    joinNL (ls ++ [b]) = joinNL ls ++ '\n' :: b := by
  induction ls with
  | nil => exact absurd rfl hne
  | cons l ms ih =>
    cases ms with
    | nil => rfl
    | cons m ms2 =>
      rw [List.cons_append, joinNL_cons_of_ne l (by simp),
        joinNL_cons_of_ne l (by simp), ih (by simp)]
      simp [List.append_assoc]

theorem reverse_joinNL (ls : List (List Char)) :
    (joinNL ls).reverse = joinNL ((ls.map List.reverse).reverse) := by
  induction ls with
  | nil => rfl
  | cons l ms ih =>
    cases ms with
    | nil => simp [joinNL]
    | cons m ms2 =>
      rw [joinNL_cons_of_ne l (by simp), List.reverse_append, List.reverse_cons]
      have hA : ((m :: ms2).map List.reverse).reverse ≠ [] := by simp
      rw [List.append_assoc, List.singleton_append, ih,
        ← joinNL_concat hA l.reverse]
      congr 1
      simp

theorem isEmpty_reverse_eq {α : Type} (l : List α) : (l.reverse).isEmpty = l.isEmpty := by
  cases hb : l.reverse.isEmpty <;> cases hb2 : l.isEmpty <;> simp_all [List.isEmpty_eq_true]

theorem trimRight_rev_iff {l : List Char} :
    trimRight l = l ↔ trimLeft l.reverse = l.reverse := by
  rw [trimRight, List.rdropWhile, trimLeft]
  constructor
  · intro hh
    conv_rhs => rw [← hh]
    rw [List.reverse_reverse]
  · intro hh
    rw [hh, List.reverse_reverse]

theorem trimRight_joinNL {ls : List (List Char)}
    (h : ∀ l ∈ ls, trimRight l = l) :
    trimRight (joinNL ls) = joinNL (dropEndEmpty ls) := by
  have hrev : ∀ m ∈ (ls.map List.reverse).reverse, trimLeft m = m := by
    intro m hm
    simp only [List.mem_reverse, List.mem_map] at hm
    obtain ⟨l, hl, rfl⟩ := hm
    exact trimRight_rev_iff.mp (h l hl)
  rw [trimRight, List.rdropWhile, reverse_joinNL ls]
  rw [show List.dropWhile isGoSpace (joinNL ((ls.map List.reverse).reverse)) =
      trimLeft (joinNL ((ls.map List.reverse).reverse)) from rfl]
  rw [trimLeft_joinNL hrev, reverse_joinNL]
  congr 1
  rw [show (ls.map List.reverse).reverse = ls.reverse.map List.reverse by
    rw [List.map_reverse]]
  rw [List.dropWhile_map, dropEndEmpty, List.map_map]
  have hdw : List.dropWhile ((fun l : List Char => l.isEmpty) ∘ List.reverse) ls.reverse
      = List.dropWhile (fun l : List Char => l.isEmpty) ls.reverse :=
    dropWhile_congr_of_eq (fun x _ => isEmpty_reverse_eq x)
  rw [hdw]
  simp

theorem dropWhile_eq_cons_head_false {α : Type} {p : α → Bool} {l : List α} {a : α}
    {t : List α} (h : l.dropWhile p = a :: t) : p a = false := by
  induction l with
  | nil => simp [List.dropWhile] at h
  | cons b r ih =>
    rw [List.dropWhile_cons] at h
    by_cases hb : p b = true
    · rw [if_pos hb] at h
      exact ih h
    · rw [if_neg hb] at h
      injection h with h1 h2
      rw [← h1]
      exact Bool.of_not_eq_true hb

theorem dropEndEmpty_eq_rdropWhile (ls : List (List Char)) :
    dropEndEmpty ls = List.rdropWhile (fun l => l.isEmpty) ls := rfl

/-- A joined list of trimmed, newline-free, CR-free lines whose first and last
lines are non-empty is a fixed point of the normalization pipeline. -/
theorem normalizeChars_joinNL_of_normal {ns : List (List Char)} (hne : ns ≠ [])
    (hnl : ∀ l ∈ ns, '\n' ∉ l) (hcr : ∀ l ∈ ns, '\r' ∉ l)
    (htrim : ∀ l ∈ ns, Trimmed l)
    (hhead : ns.head? ≠ some ([] : List Char))
    (hlast : ns.getLast? ≠ some ([] : List Char)) :
    normalizeChars (joinNL ns) = joinNL ns := by
  have hjoin_cr : '\r' ∉ joinNL ns := by
    intro hmem
    rcases mem_joinNL hmem with h | ⟨l, hl, hcl⟩
    · exact absurd h (by decide)
    · exact hcr l hl hcl
  have hsplit : splitNL (fixCR (joinNL ns)) = ns := by
    rw [fixCR_eq_self_of_no_cr hjoin_cr, splitNL_joinNL hne hnl]
  have hmap : ns.map trimSpace = ns := by
    rw [show ns.map trimSpace = ns.map id from
      List.map_congr_left (fun l hl => trimSpace_eq_self_of_trimmed (htrim l hl)),
      List.map_id]
  have htl : trimLeft (joinNL ns) = joinNL ns := by
    rw [trimLeft_joinNL (fun l hl => (htrim l hl).1)]
    congr 1
    cases ns with
    | nil => rfl
    | cons a t =>
      have ha : a.isEmpty = false := by
        cases hae : a.isEmpty
        · rfl
        · exact absurd (by simp_all [List.isEmpty_eq_true]) hhead
      rw [List.dropWhile_cons, if_neg (by simp [ha])]
  have htr : trimRight (joinNL ns) = joinNL ns := by
    rw [trimRight_joinNL (fun l hl => (htrim l hl).2)]
    congr 1
    rw [dropEndEmpty_eq_rdropWhile, List.rdropWhile_eq_self_iff]
    intro hl
    show ¬(ns.getLast hl).isEmpty = true
    intro hisempty
    apply hlast
    rw [List.getLast?_eq_getLast ns hl]
    have hnil : ns.getLast hl = [] := by
      cases hgl : ns.getLast hl with
      | nil => rfl
      | cons a t =>
        rw [hgl] at hisempty
        simp [List.isEmpty] at hisempty
    rw [hnil]
  rw [normalizeChars, hsplit, hmap, trimSpace, htl, htr]

theorem trimmed_pieces (s : List Char) :
    ∀ l ∈ (splitNL (fixCR s)).map trimSpace, Trimmed l := by
  intro l hl
  rcases List.mem_map.mp hl with ⟨l0, _, rfl⟩
  exact trimmed_trimSpace l0

theorem no_nl_pieces (s : List Char) :
    ∀ l ∈ (splitNL (fixCR s)).map trimSpace, '\n' ∉ l := by
  intro l hl hmem
  rcases List.mem_map.mp hl with ⟨l0, hl0, rfl⟩
  exact mem_splitNL_no_nl hl0 (trimSpace_subset l0 hmem)

theorem no_cr_pieces (s : List Char) :
    ∀ l ∈ (splitNL (fixCR s)).map trimSpace, '\r' ∉ l := by
  intro l hl hmem
  rcases List.mem_map.mp hl with ⟨l0, hl0, rfl⟩
  exact fixCR_no_cr s (mem_splitNL_subset hl0 (trimSpace_subset l0 hmem))

/-- Closed form of the normalization pipeline: the result is the join of the
trimmed lines with the leading and trailing runs of empty lines removed. -/
theorem normalizeChars_eq_joinNL (s : List Char) :
    normalizeChars s = joinNL (dropEndEmpty
      (((splitNL (fixCR s)).map trimSpace).dropWhile fun l => l.isEmpty)) := by
  have htrims := trimmed_pieces s
  have hmemm : ∀ l ∈ ((splitNL (fixCR s)).map trimSpace).dropWhile
      (fun l : List Char => l.isEmpty), l ∈ (splitNL (fixCR s)).map trimSpace :=
    fun l hl => (List.dropWhile_suffix _).sublist.subset hl
  rw [normalizeChars, trimSpace, trimLeft_joinNL (fun l hl => (htrims l hl).1)]
  exact trimRight_joinNL (fun l hl => (htrims l (hmemm l hl)).2)

theorem normalizeChars_idem (s : List Char) :
    normalizeChars (normalizeChars s) = normalizeChars s := by
  have heq := normalizeChars_eq_joinNL s
  set base := (splitNL (fixCR s)).map trimSpace with hbase
  set m := base.dropWhile (fun l : List Char => l.isEmpty) with hm
  set ns := dropEndEmpty m with hns
  have hns_r : ns = List.rdropWhile (fun l : List Char => l.isEmpty) m := by
    rw [hns, dropEndEmpty_eq_rdropWhile]
  have hsub_m : ∀ l ∈ ns, l ∈ m := by
    intro l hl
    refine ( List.rdropWhile_prefix (fun l : List Char => l.isEmpty) m).sublist.subset ?_
    rw [← hns_r]
    exact hl
  have hsub : ∀ l ∈ ns, l ∈ base := by
    intro l hl
    exact (List.dropWhile_suffix _).sublist.subset (hm ▸ hsub_m l hl)
  cases hshape : ns with
  | nil =>
    rw [heq, hshape]
    rfl
  | cons a t =>
    have hne : ns ≠ [] := by rw [hshape]; simp
    have hpre : ns <+: m := by
      rw [hns_r]
      exact List.rdropWhile_prefix _ m
    obtain ⟨r, hr⟩ := hpre
    have hm_shape : base.dropWhile (fun l : List Char => l.isEmpty) = a :: (t ++ r) := by
      rw [← hm, ← hr, hshape]
      rfl
    have ha : a.isEmpty = false :=
      dropWhile_eq_cons_head_false hm_shape
    have hhead : ns.head? ≠ some ([] : List Char) := by
      rw [hshape]
      simp only [List.head?_cons]
      intro hae
      injection hae with hae2
      rw [hae2] at ha
      simp [List.isEmpty] at ha
    have hlast : ns.getLast? ≠ some ([] : List Char) := by
      have hlast_not := List.rdropWhile_last_not
        (fun l : List Char => l.isEmpty) m (by rw [← hns_r]; exact hne)
      rw [List.getLast?_eq_getLast ns hne]
      intro hcontra0
      injection hcontra0 with hcontra
      apply hlast_not
      show (ns.getLast hne).isEmpty = true
      rw [hcontra]
      rfl
    rw [heq]
    exact normalizeChars_joinNL_of_normal hne
      (fun l hl => no_nl_pieces s l (hsub l hl))
      (fun l hl => no_cr_pieces s l (hsub l hl))
      (fun l hl => trimmed_pieces s l (hsub l hl))
      hhead hlast

/-- C4: the output-comparator normalization is idempotent: applying
`NormalizeString` twice yields the same string as applying it once, for every
input string. -/
theorem normalizeString_idempotent (x : String) :
    NormalizeString (NormalizeString x) = NormalizeString x := by
  show String.mk (normalizeChars (String.mk (normalizeChars x.data)).data) =
    String.mk (normalizeChars x.data)
  exact congrArg String.mk (normalizeChars_idem x.data)

/-- C1: for every completed execution, the verdict computed by the executor's
status-field logic followed by the runner's comparison step equals the first
matching rule of the strict priority order of spec paragraph 4.7: monitor
timeout, monitor memory breach, outer context deadline, sink overflow,
non-zero exit or wait error, output mismatch, accepted; in particular when
both `timed_out` and `exceeded_memory` hold the verdict is Time Limit
Exceeded. -/
theorem verdict_first_match_of_spec_table (cfg : ExecConfig) (i : ExecInput)
    (co : String) (expectedOutput : Option String) :
    (runExecutePhase cfg i co expectedOutput).status = verdictSpecTable i expectedOutput := by
  rcases i with ⟨tmo, em, mk, dm, ctx, so, se, out, errS, we, ec⟩
  simp only [runExecutePhase, executorResult, compareStep, verdictSpecTable, outputLimitError]
  cases tmo <;> cases em <;> cases ctx <;> cases so <;> cases se <;>
    rcases we with _ | w <;> rcases expectedOutput with _ | e <;>
    by_cases hec : ec = 0 <;>
    simp_all [CompareOutputs, beq_iff_eq] <;>
    try (split <;> simp_all)

/-- C2 counterexample: a run whose stdout sink overflowed and whose child
exited with code 1 (wait error present) is classified Output Limit Exceeded,
not Runtime Error: rule 5 of the executor only fires when no status has been
assigned yet, so it never overrides rule 4. -/
theorem overflow_with_nonzero_exit_not_runtime_error :
    (executorResult
      { execTimeoutMillis := 3000, memLimitKB := 524288,
        maxStdoutSize := 65536, maxStderrSize := 65536 }
      { timedOut := false, exceededMemory := false, memoryKB := 100,
        durationMillis := 50, ctxDeadlineExceeded := false,
        stdoutExceeded := true, stderrExceeded := false, stdout := "x",
        stderr := "", waitError := some "exit status 1", exitCode := 1 }).status =
      Status.outputLimitExceeded ∧
    (executorResult
      { execTimeoutMillis := 3000, memLimitKB := 524288,
        maxStdoutSize := 65536, maxStderrSize := 65536 }
      { timedOut := false, exceededMemory := false, memoryKB := 100,
        durationMillis := 50, ctxDeadlineExceeded := false,
        stdoutExceeded := true, stderrExceeded := false, stdout := "x",
        stderr := "", waitError := some "exit status 1", exitCode := 1 }).status ≠
      Status.runtimeError := by
  constructor
  · rfl
  · decide

/-- C2 as amended: whenever a sink overflowed and no earlier rule (monitor
timeout, memory breach, context deadline) fired, the verdict is Output Limit
Exceeded, even when the child also exited non-zero, and the error field
holds exactly the truncation message, with no mention of the runtime
failure. -/
theorem overflow_dominates_runtime_error (cfg : ExecConfig) (i : ExecInput)
    (h1 : i.timedOut = false) (h2 : i.exceededMemory = false)
    (h3 : i.ctxDeadlineExceeded = false)
    (h4 : i.stdoutExceeded = true ∨ i.stderrExceeded = true) :
    (executorResult cfg i).status = Status.outputLimitExceeded ∧
    (executorResult cfg i).error = (outputLimitError i.stdoutExceeded i.stderrExceeded
      cfg.maxStdoutSize cfg.maxStderrSize).getD "" := by
  rcases i with ⟨tmo, em, mk, dm, ctx, so, se, out, errS, we, ec⟩
  simp only at h1 h2 h3 h4
  subst h1 h2 h3
  rcases h4 with h4 | h4
  · subst h4
    cases se <;> rcases we with _ | w <;> simp_all [executorResult, outputLimitError]
  · subst h4
    cases so <;> rcases we with _ | w <;> simp_all [executorResult, outputLimitError]

/-- C2 amended, witness at a concrete overflowing input. -/
theorem overflow_dominates_runtime_error_witness :
    (executorResult
      { execTimeoutMillis := 3000, memLimitKB := 524288,
        maxStdoutSize := 65536, maxStderrSize := 65536 }
      { timedOut := false, exceededMemory := false, memoryKB := 100,
        durationMillis := 50, ctxDeadlineExceeded := false,
        stdoutExceeded := false, stderrExceeded := true, stdout := "x",
        stderr := "y", waitError := some "exit status 2", exitCode := 2 }).status =
      Status.outputLimitExceeded ∧
    (executorResult
      { execTimeoutMillis := 3000, memLimitKB := 524288,
        maxStdoutSize := 65536, maxStderrSize := 65536 }
      { timedOut := false, exceededMemory := false, memoryKB := 100,
        durationMillis := 50, ctxDeadlineExceeded := false,
        stdoutExceeded := false, stderrExceeded := true, stdout := "x",
        stderr := "y", waitError := some "exit status 2", exitCode := 2 }).error =
      (outputLimitError false true 65536 65536).getD "" :=
  overflow_dominates_runtime_error _ _ rfl rfl rfl (Or.inr rfl)

/-- C5: when execution ended Accepted and an expected output is provided, the
comparison step yields Accepted exactly when the two normalized strings agree
and Wrong Answer otherwise, leaving the raw captured stdout untouched; and
the step is the identity whenever the status is not Accepted (an earlier
rule fired). -/
theorem compare_step_runs_only_when_accepted (res : Result) (expected : String)
    (hacc : res.status = Status.accepted) :
    ((compareStep res (some expected)).status =
      if NormalizeString res.stdout = NormalizeString expected then Status.accepted
      else Status.wrongAnswer) ∧
    (compareStep res (some expected)).stdout = res.stdout ∧
    (∀ r' : Result, r'.status ≠ Status.accepted →
      ∀ eo : Option String, compareStep r' eo = r') := by
  refine ⟨?_, ?_, ?_⟩
  · simp only [compareStep, hacc, if_pos, CompareOutputs, beq_iff_eq]
    split <;> simp_all
  · simp only [compareStep, hacc, if_pos]
    split <;> rfl
  · intro r' hr' eo
    cases eo with
    | none => rfl
    | some e => simp [compareStep, hr']

/-- C5 witness: the comparison at a concrete accepted result with a
whitespace-differing expected output. -/
theorem compare_step_runs_only_when_accepted_witness :
    sampleAcceptedResult.status = Status.accepted ∧
    (((compareStep sampleAcceptedResult (some "2")).status =
      if NormalizeString sampleAcceptedResult.stdout = NormalizeString "2" then
        Status.accepted
      else Status.wrongAnswer) ∧
    (compareStep sampleAcceptedResult (some "2")).stdout = sampleAcceptedResult.stdout ∧
    (∀ r' : Result, r'.status ≠ Status.accepted →
      ∀ eo : Option String, compareStep r' eo = r')) :=
  ⟨rfl, compare_step_runs_only_when_accepted sampleAcceptedResult "2" rfl⟩

/-- C7: a compile failure short-circuits the run (the execute stage never
runs) and yields Compile Error with the captured diagnostics in the
compile-output field; the main error field holds those diagnostics exactly
when the failure was not a compile timeout, and the timeout error's own
message otherwise. -/
theorem compile_failure_short_circuit (cfg : ExecConfig) (f : CompileFailure)
    (i : ExecInput) (co : String) (eo : Option String) :
    (runWithConfig cfg (some f) i co eo).2 = false ∧
    (runWithConfig cfg (some f) i co eo).1.status = Status.compileError ∧
    (runWithConfig cfg (some f) i co eo).1.compileOutput = f.diagnostics ∧
    (runWithConfig cfg (some f) i co eo).1.error =
      (if f.isTimeout then f.errMessage else f.diagnostics) := by
  cases f with
  | mk tmo msg diag => cases tmo <;> simp [runWithConfig, compileFailureResult]

/-- C6 counterexample: a request timeout of 31 seconds (language default 3 s)
does not produce a 30-second limit with the user-specified flag set; the
override is ignored entirely. -/
theorem timeout_above_cap_not_clamped :
    ¬ ((effectiveRunTimeout 3 3 (some 31)).1 = min (31 : Int) 30 ∧
       (effectiveRunTimeout 3 3 (some 31)).2 = true) := by
  decide

/-- C6 as amended: a positive request timeout of at most 30 seconds becomes
the effective limit with the user-specified flag set; a request timeout above
30 seconds is ignored: the effective limit stays the language (or global)
default and the flag stays false. -/
theorem timeout_override_clamp_behavior (langSec globalSec t : Int) (ht : 0 < t) :
    (t ≤ 30 → effectiveRunTimeout langSec globalSec (some t) = (t, true)) ∧
    (30 < t → effectiveRunTimeout langSec globalSec (some t) =
      (getExecuteTimeout langSec globalSec false, false)) := by
  constructor <;> intro h
  · simp [effectiveRunTimeout, apiTimeoutOverride, getExecuteTimeout, ht, h]
  · have hnot : ¬ t ≤ 30 := by omega
    by_cases hl : langSec ≤ 0 <;>
      simp [effectiveRunTimeout, apiTimeoutOverride, getExecuteTimeout, ht, hnot, hl]

/-- C6 amended, witness at the concrete request timeout of 5 seconds. -/
theorem timeout_override_clamp_behavior_witness :
    (0 : Int) < 5 ∧
    (((5 : Int) ≤ 30 → effectiveRunTimeout 3 3 (some 5) = (5, true)) ∧
     ((30 : Int) < 5 → effectiveRunTimeout 3 3 (some 5) =
       (getExecuteTimeout 3 3 false, false))) :=
  ⟨by decide, timeout_override_clamp_behavior 3 3 5 (by decide)⟩

theorem lwInv_init (L : Int) : lwInv L (NewLimitedWriter L) := by
  refine ⟨rfl, by simp [NewLimitedWriter], by simp [NewLimitedWriter], ?_, ?_⟩
  · simp [NewLimitedWriter]
  · simp [NewLimitedWriter]

theorem lwInv_step {L : Int} {s : LimitedWriter} (h : lwInv L s)
    (p : List Char) : lwInv L (lwWrite s p).1 := by
  obtain ⟨hlim, hlen, hpos, hmax, hexc⟩ := h
  by_cases hsat : s.limit - s.written ≤ 0
  · have hst : (lwWrite s p).1 = { s with Exceeded := true } := by
      rw [lwWrite, if_pos hsat]
    rw [hst]
    exact ⟨hlim, hlen, hpos, hmax, fun _ => sub_nonpos.mp hsat⟩
  · have hrem : 0 < s.limit - s.written := by omega
    by_cases htr : (p.length : Int) > s.limit - s.written
    · have hst : (lwWrite s p).1 =
          { buf := s.buf ++ p.take (s.limit - s.written).toNat, limit := s.limit,
            written := s.written + (s.limit - s.written), Exceeded := true } := by
        rw [lwWrite, if_neg hsat]
        simp [htr]
      rw [hst]
      have hklen : (p.take (s.limit - s.written).toNat).length =
          (s.limit - s.written).toNat := by
        rw [List.length_take]
        omega
      refine ⟨hlim, ?_, ?_, ?_, fun _ => ?_⟩
      · show s.written + (s.limit - s.written) =
          ((s.buf ++ p.take (s.limit - s.written).toNat).length : Int)
        rw [List.length_append, hklen]
        push_cast
        omega
      · show 0 ≤ s.written + (s.limit - s.written)
        omega
      · show s.written + (s.limit - s.written) ≤ max L 0
        have hL : s.written + (s.limit - s.written) = L := by omega
        rw [hL]
        exact le_max_left L 0
      · show s.limit ≤ s.written + (s.limit - s.written)
        omega
    · have hst : (lwWrite s p).1 =
          { buf := s.buf ++ p.take ((p.length : Int)).toNat, limit := s.limit,
            written := s.written + (p.length : Int), Exceeded := s.Exceeded } := by
        rw [lwWrite, if_neg hsat]
        simp [htr]
      rw [hst]
      have hklen : (p.take ((p.length : Int)).toNat).length = p.length := by
        rw [List.length_take]
        omega
      refine ⟨hlim, ?_, ?_, ?_, fun hx => ?_⟩
      · show s.written + (p.length : Int) =
          ((s.buf ++ p.take ((p.length : Int)).toNat).length : Int)
        rw [List.length_append, hklen]
        push_cast
        omega
      · show 0 ≤ s.written + (p.length : Int)
        omega
      · show s.written + (p.length : Int) ≤ max L 0
        omega
      · have := hexc hx
        show s.limit ≤ s.written + (p.length : Int)
        omega

theorem lwInv_writeAll (L : Int) (ps : List (List Char)) :
    lwInv L (lwWriteAll (NewLimitedWriter L) ps) := by
  suffices hgen : ∀ (s : LimitedWriter), lwInv L s → lwInv L (lwWriteAll s ps) from
    hgen _ (lwInv_init L)
  induction ps with
  | nil => exact fun s hs => hs
  | cons p ps ih => exact fun s hs => ih _ (lwInv_step hs p)

/-- Per-state form of the bounded-sink contract, from the invariant. -/
theorem lw_write_behavior {L : Int} (hL : 0 ≤ L) {s : LimitedWriter}
    (hinv : lwInv L s) (p : List Char) : lwWriteBehavior L s p := by
  obtain ⟨hlim, hlen, hpos, hmax, hexc⟩ := hinv
  refine ⟨?_, ?_, by omega⟩
  · intro hsatL
    have hsat : s.limit - s.written ≤ 0 := by omega
    have hst : lwWrite s p = ({ s with Exceeded := true }, (p.length : Int), none) := by
      rw [lwWrite, if_pos hsat]
    rw [hst]
    exact ⟨rfl, rfl, rfl⟩
  · intro hlt
    have hne : ¬ s.limit - s.written ≤ 0 := by omega
    by_cases htr : (p.length : Int) > s.limit - s.written
    · have hst : lwWrite s p =
          ({ buf := s.buf ++ p.take (s.limit - s.written).toNat, limit := s.limit,
             written := s.written + (s.limit - s.written), Exceeded := true },
           (p.length : Int), none) := by
        rw [lwWrite, if_neg hne]
        simp [htr]
      rw [hst]
      have hmin : min p.length (L - s.written).toNat = (s.limit - s.written).toNat := by
        omega
      refine ⟨by rw [hmin], ?_⟩
      constructor
      · intro _
        omega
      · intro _
        rfl
    · have hef : s.Exceeded = false := by
        cases hE : s.Exceeded
        · rfl
        · exact absurd (hexc hE) (by omega)
      have hst : lwWrite s p =
          ({ buf := s.buf ++ p.take ((p.length : Int)).toNat, limit := s.limit,
             written := s.written + (p.length : Int), Exceeded := s.Exceeded },
           (p.length : Int), none) := by
        rw [lwWrite, if_neg hne]
        simp [htr, hef]
      rw [hst]
      have hmin : min p.length (L - s.written).toNat = p.length := by omega
      have hto : ((p.length : Int)).toNat = p.length := by omega
      refine ⟨by rw [hmin, hto], ?_⟩
      rw [hef]
      constructor
      · intro hcontra
        exact absurd hcontra (by simp)
      · intro hcontra
        omega

/-- C3: along every write sequence against a sink with non-negative byte cap
`L`, the next write obeys the bounded-sink contract: saturated writes
discard and report full consumption with the overflow flag set, unsaturated
writes append exactly `min(n, L - written)` bytes and set the flag iff they
truncated, and the captured buffer length never exceeds `L`. -/
theorem bounded_sink_write_contract (L : Int) (hL : 0 ≤ L)
    (ps : List (List Char)) (p : List Char) :
    lwWriteBehavior L (lwWriteAll (NewLimitedWriter L) ps) p :=
  lw_write_behavior hL (lwInv_writeAll L ps) p

/-- C3 witness: cap 2, after writing `abc` (truncated), a further write. -/
theorem bounded_sink_write_contract_witness :
    (0 : Int) ≤ 2 ∧
    lwWriteBehavior 2 (lwWriteAll (NewLimitedWriter 2) [['a', 'b', 'c']]) ['d'] :=
  ⟨by decide, bounded_sink_write_contract 2 (by decide) [['a', 'b', 'c']] ['d']⟩

/-- C10: every write through the bounded sink reports the full argument
length as consumed and no error: the underlying in-memory buffer write
cannot fail, and both the saturated and the truncating paths deliberately
return `(len(p), nil)`, so the process-output copier never sees a short
write. -/
theorem bounded_sink_reports_full_write (lw : LimitedWriter) (p : List Char) :
    (lwWrite lw p).2 = ((p.length : Int), (none : Option String)) := by
  rw [lwWrite]
  by_cases hsat : lw.limit - lw.written ≤ 0
  · rw [if_pos hsat]
  · rw [if_neg hsat]
    by_cases htr : (p.length : Int) > lw.limit - lw.written
    · simp [htr]
    · simp only [htr, if_neg, if_false]
      split <;> rfl

theorem monStep_isTimeout_mono {limitKB : Int} {s t : MonState}
    (h : MonStep limitKB s t) (hT : s.isTimeout = true) : t.isTimeout = true := by
  cases h <;> simp_all [samplerObserve]

theorem monStep_exceeded_frozen {limitKB : Int} {s t : MonState}
    (h : MonStep limitKB s t) (hT : s.isTimeout = true) :
    t.isExceeded = s.isExceeded := by
  cases h <;> simp_all [samplerObserve]

/-- C8 counterexample: with memory limit 100 KB, the monitor can reach a
state with both `IsExceeded` and `IsTimeout` set: the sampler records a
200 KB breach and returns, and the timer, which never consults `IsExceeded`,
fires afterwards (before `done` is closed) and records the timeout too. -/
theorem monitor_both_flags_reachable :
    MonReaches 100 monInit
      { memoryKB := 200, isExceeded := true, isTimeout := true,
        timerDone := true, samplerDone := true, doneClosed := false } ∧
    (( { memoryKB := 200, isExceeded := true, isTimeout := true,
         timerDone := true, samplerDone := true, doneClosed := false } : MonState).isExceeded
      = true ∧
     ( { memoryKB := 200, isExceeded := true, isTimeout := true,
         timerDone := true, samplerDone := true, doneClosed := false } : MonState).isTimeout
      = true) := by
  refine ⟨?_, rfl, rfl⟩
  have h1 : MonStep 100 monInit
      { memoryKB := 200, isExceeded := true, isTimeout := false,
        timerDone := false, samplerDone := true, doneClosed := false } := by
    have hobs : samplerObserve 100 monInit (some 200) =
        { memoryKB := 200, isExceeded := true, isTimeout := false,
          timerDone := false, samplerDone := true, doneClosed := false } := by decide
    exact hobs ▸ MonStep.samplerTick (some 200) rfl rfl
  have h2 : MonStep 100
      { memoryKB := 200, isExceeded := true, isTimeout := false,
        timerDone := false, samplerDone := true, doneClosed := false }
      { memoryKB := 200, isExceeded := true, isTimeout := true,
        timerDone := true, samplerDone := true, doneClosed := false } :=
    MonStep.timerFire rfl rfl
  exact MonReaches.step (MonReaches.step (MonReaches.refl _) h1) h2

/-- C8 as amended: the one-sided discipline that does hold: from any state
in which `IsTimeout` is already recorded, no later monitor step ever changes
`IsExceeded` (the sampler checks the timeout flag, under the mutex, before
it can record a memory breach), and the timeout flag stays set. The converse
direction fails, per the counterexample. -/
theorem monitor_exceeded_frozen_after_timeout (limitKB : Int) (s t : MonState)
    (hreach : MonReaches limitKB s t) (hT : s.isTimeout = true) :
    t.isExceeded = s.isExceeded ∧ t.isTimeout = true := by
  induction hreach with
  | refl => exact ⟨rfl, hT⟩
  | step hst hstep ih =>
    obtain ⟨ihE, ihT⟩ := ih
    exact ⟨(monStep_exceeded_frozen hstep ihT).trans ihE,
      monStep_isTimeout_mono hstep ihT⟩

/-- C8 amended, witness: a concrete one-step trace from a timed-out state. -/
theorem monitor_exceeded_frozen_after_timeout_witness :
    ({ memoryKB := -1, isExceeded := false, isTimeout := true, timerDone := false,
       samplerDone := false, doneClosed := false } : MonState).isTimeout = true ∧
    (({ memoryKB := -1, isExceeded := false, isTimeout := true, timerDone := false,
        samplerDone := true, doneClosed := false } : MonState).isExceeded =
      ({ memoryKB := -1, isExceeded := false, isTimeout := true, timerDone := false,
         samplerDone := false, doneClosed := false } : MonState).isExceeded ∧
     ({ memoryKB := -1, isExceeded := false, isTimeout := true, timerDone := false,
        samplerDone := true, doneClosed := false } : MonState).isTimeout = true) :=
  ⟨rfl, monitor_exceeded_frozen_after_timeout 100 _ _
    (MonReaches.step (MonReaches.refl _) (MonStep.samplerSeesTimeout rfl rfl)) rfl⟩

/-- C9, evaluated at the failing input: under the default filtered profile
with network disabled, a `socket` call with address family `AF_INET` (2) is
permitted (the default allow-list installs an unconditional Allow rule for
`socket` ahead of the conditional rules) and moreover, under a profile
whose allow-list omits `socket`, even an `AF_UNIX` (1) call is denied,
because the conditional allow's comparison `(arg0 & 1) == 0xFFFFFFFF` can
never hold. The attached filter therefore does not restrict `socket` to the
local domain. -/
theorem socket_filter_does_not_restrict_to_af_unix :
    evalFilter (ApplySeccompFilters
      { seccompMode := "filtered", allowedSyscalls := [],
        disableNetwork := true, disableExec := false })
      "socket" (fun _ => 2) = SeccompAction.allow ∧
    evalFilter (ApplySeccompFilters
      { seccompMode := "filtered", allowedSyscalls := ["read"],
        disableNetwork := true, disableExec := false })
      "socket" (fun _ => 1) = SeccompAction.errnoReturn := by
  constructor
  · decide
  · decide

end CrojSandbox
